import Mathlib

/-!
Verification of the MIDI decoder and voice-manager core of the repository.

The development shallowly embeds the two source modules that carry the
program logic:

* the MIDI decoder (function getEventForData of the midi input element):
  a pure function from a three-byte message to an optional semantic event;
* the voice manager (class BaseOscillator of the oscillator element):
  its mutable fields become an explicit state record, and each method or
  registered event handler becomes a state-transforming function.

JavaScript Map and Set values are modelled as association lists and lists;
JavaScript numbers are modelled as exact rationals (for controller values)
and reals (for the frequency computation, which uses a real exponential).
Calls to the Web Audio synthesis engine are recorded in ghost fields of the
state: each created oscillator receives a fresh identifier, the identifiers
of oscillators on which stop was called are collected in stoppedIds, and the
identifiers disconnected by the registered onended completion callback are
collected in disconnectedIds.
-/

/-- Semantic MIDI events, mirroring the CustomEvent types the decoder
produces (noteOn, noteOff, pitchWheel, modWheel, sustainOn, sustainOff). -/
inductive MidiEvent where
  | noteOn (channel : ℕ) (note : ℕ) (velocity : ℚ)
  | noteOff (channel : ℕ) (note : ℕ)
  | pitchWheel (value : ℚ)
  | modWheel (value : ℚ)
  | sustainOn (channel : ℕ)
  | sustainOff (channel : ℕ)
deriving DecidableEq

/-- MIDICommand.NOTE_OFF. -/
def NOTE_OFF : ℕ := 0x80

/-- MIDICommand.NOTE_ON. -/
def NOTE_ON : ℕ := 0x90

/-- MIDICommand.CONTROL_CHANGE. -/
def CONTROL_CHANGE : ℕ := 0xb0

/-- MIDICommand.PITCH_WHEEL. -/
def PITCH_WHEEL : ℕ := 0xe0

/-- MIDIControlChange.MODWHEEL. -/
def MODWHEEL : ℕ := 0x01

/-- MIDIControlChange.SUSTAIN. -/
def SUSTAIN : ℕ := 0x40

/-- NUM_MIDI_CHANNELS. -/
def NUM_MIDI_CHANNELS : ℕ := 16

/-- The channel of a status byte: data[0] % NUM_MIDI_CHANNELS. -/
def midiChannel (d0 : ℕ) : ℕ := d0 % NUM_MIDI_CHANNELS

/-- The command of a status byte: data[0] - channel. -/
def midiCommand (d0 : ℕ) : ℕ := d0 - midiChannel d0

/-- Embedding of getEventForData: parses a three-byte MIDI message
(d0 = data[0], d1 = data[1], d2 = data[2], each a byte) and returns the
semantic event, or none for unsupported messages.  The source's local
bindings channel and command are the functions midiChannel and midiCommand;
a JavaScript truthiness test on a number is a comparison with zero. -/
def getEventForData (d0 d1 d2 : ℕ) : Option MidiEvent :=
  if d0 < NOTE_OFF ∨ PITCH_WHEEL + NUM_MIDI_CHANNELS ≤ d0 then none
  else if midiCommand d0 = NOTE_ON ∨ midiCommand d0 = NOTE_OFF then
    if midiCommand d0 = NOTE_ON ∧ (d2 : ℚ) / 255 ≠ 0 then
      some (MidiEvent.noteOn (midiChannel d0) d1 ((d2 : ℚ) / 255))
    else
      some (MidiEvent.noteOff (midiChannel d0) d1)
  else if midiCommand d0 = PITCH_WHEEL then
    some (MidiEvent.pitchWheel (((d1 : ℚ) + (d2 : ℚ) * 256) / 65535))
  else if midiCommand d0 = CONTROL_CHANGE then
    if d1 = MODWHEEL then
      some (MidiEvent.modWheel ((d2 : ℚ) / 255))
    else if d1 = SUSTAIN then
      if d2 ≠ 0 then some (MidiEvent.sustainOn (midiChannel d0))
      else some (MidiEvent.sustainOff (midiChannel d0))
    else none
  else none

example : getEventForData 0x90 60 0 = some (MidiEvent.noteOff 0 60) := by
  simp [getEventForData, midiCommand, midiChannel, NOTE_OFF, NOTE_ON,
    PITCH_WHEEL, NUM_MIDI_CHANNELS]

example : getEventForData 0x90 60 127 =
    some (MidiEvent.noteOn 0 60 (127 / 255)) := by
  norm_num [getEventForData, midiCommand, midiChannel, NOTE_OFF, NOTE_ON,
    PITCH_WHEEL, NUM_MIDI_CHANNELS]

example : getEventForData 0xb0 0x40 127 = some (MidiEvent.sustainOn 0) := by
  norm_num [getEventForData, midiCommand, midiChannel, NOTE_OFF, NOTE_ON,
    PITCH_WHEEL, CONTROL_CHANGE, NUM_MIDI_CHANNELS, MODWHEEL, SUSTAIN]

/-- The four supported waveforms (BaseOscillator.waveforms). -/
inductive Waveform where
  | sawtooth
  | sine
  | square
  | triangle
deriving DecidableEq

/-- One live voice: the entry stored in the activeNotes map.  The id field
is a ghost identifier for the underlying oscillator node (fresh at each
creation); oscDetune is the detune value currently applied to the
oscillator; gain and waveform are the creation parameters. -/
structure Voice where
  id : ℕ
  note : ℤ
  oscDetune : ℚ
  gain : ℚ
  waveform : Waveform
deriving DecidableEq

/-- The mutable fields of BaseOscillator, plus two ghost logs recording the
calls made to the synthesis engine: stoppedIds collects the oscillator ids
on which stop was called, disconnectedIds the ids disconnected by the
onended completion callback.  nextId is the fresh-id counter. -/
structure OscState where
  nextId : ℕ
  activeNotes : List (ℤ × Voice)
  detune : ℚ
  detuneAmount : ℚ
  stickyPitchBend : Bool
  sustainActive : Bool
  sustainedNotes : List ℤ
  waveform : Waveform
  isNoteOn : Bool
  stoppedIds : List ℕ
  disconnectedIds : List ℕ
deriving DecidableEq

/-- The field initializers of BaseOscillator. -/
def initState : OscState :=
  { nextId := 0
    activeNotes := []
    detune := 0
    detuneAmount := 2
    stickyPitchBend := false
    sustainActive := false
    sustainedNotes := []
    waveform := Waveform.sine
    isNoteOn := false
    stoppedIds := []
    disconnectedIds := [] }

/-- Map.has on the association list modelling activeNotes. -/
def mapHas (l : List (ℤ × Voice)) (n : ℤ) : Bool :=
  l.any (fun e => decide (e.1 = n))

/-- Map.get on the association list modelling activeNotes. -/
def mapGet (l : List (ℤ × Voice)) (n : ℤ) : Option Voice :=
  (l.find? (fun e => decide (e.1 = n))).map Prod.snd

/-- Map.delete on the association list modelling activeNotes. -/
def mapDelete (l : List (ℤ × Voice)) (n : ℤ) : List (ℤ × Voice) :=
  l.filter (fun e => decide (e.1 ≠ n))

/-- Map.set on the association list modelling activeNotes: replace the
binding if the key is present, otherwise append it. -/
def mapSet (l : List (ℤ × Voice)) (n : ℤ) (v : Voice) : List (ℤ × Voice) :=
  if mapHas l n then l.map (fun e => if e.1 = n then (n, v) else e)
  else l ++ [(n, v)]

/-- Set.delete on the list modelling sustainedNotes. -/
def setDelete (l : List ℤ) (n : ℤ) : List ℤ :=
  l.filter (fun m => decide (m ≠ n))

/-- The stop closure stored with each activeNotes entry: it stops the
captured oscillator, deletes the captured note from activeNotes, and
deletes it from sustainedNotes. -/
def stopEntry (s : OscState) (note : ℤ) (v : Voice) : OscState :=
  { s with
    stoppedIds := s.stoppedIds ++ [v.id]
    activeNotes := mapDelete s.activeNotes note
    sustainedNotes := setDelete s.sustainedNotes note }

/-- BaseOscillator.start: if the note is already active, invoke the stored
stop closure of the old voice; then create a fresh oscillator (recorded as
a Voice with a fresh id, the current detune, the given velocity as gain,
and the current waveform) and Map.set it under the note. -/
def start (s : OscState) (note : ℤ) (velocity : ℚ := 1 / 5) : OscState :=
  let s1 := match mapGet s.activeNotes note with
    | some v => stopEntry s note v
    | none => s
  { s1 with
    nextId := s1.nextId + 1
    activeNotes := mapSet s1.activeNotes note
      { id := s1.nextId
        note := note
        oscDetune := s1.detune
        gain := velocity
        waveform := s1.waveform } }

/-- BaseOscillator.stop: if sustain is active, add the note to
sustainedNotes when it is active and not yet sustained; otherwise invoke
the stored stop closure of its voice (no-op when absent). -/
def stop (s : OscState) (note : ℤ) : OscState :=
  if s.sustainActive then
    if mapHas s.activeNotes note = true ∧ note ∉ s.sustainedNotes then
      { s with sustainedNotes := s.sustainedNotes ++ [note] }
    else s
  else
    match mapGet s.activeNotes note with
    | some v => stopEntry s note v
    | none => s

/-- BaseOscillator.__onNoteOn handler. -/
def onNoteOn (s : OscState) (note : ℤ) (velocity : ℚ) : OscState :=
  start { s with isNoteOn := true } note velocity

/-- BaseOscillator.__onNoteOff handler. -/
def onNoteOff (s : OscState) (note : ℤ) : OscState :=
  stop { s with isNoteOn := false } note

/-- BaseOscillator.__onSustainOn handler. -/
def onSustainOn (s : OscState) : OscState :=
  { s with sustainActive := true }

/-- BaseOscillator.__onSustainOff handler: clear the pedal flag, then stop
every note of sustainedNotes.  The source iterates the live set; since each
stop call removes only the note it is given and sustain is already off, the
iteration is equivalent to folding over the snapshot taken at entry. -/
def onSustainOff (s : OscState) : OscState :=
  s.sustainedNotes.foldl stop { s with sustainActive := false }

/-- BaseOscillator.__onDetune handler: value is the fader's bipolar
valueAsNumber; the new detune is applied to every active oscillator via
setValueAtTime. -/
def onDetune (s : OscState) (value : ℚ) : OscState :=
  { s with
    detune := value * s.detuneAmount * 100
    activeNotes := s.activeNotes.map
      (fun e => (e.1, { e.2 with oscDetune := value * s.detuneAmount * 100 })) }

/-- The onended completion callback registered in BaseOscillator.start: it
disconnects the captured oscillator and gain nodes (recorded by the ghost
field disconnectedIds) and touches nothing else. -/
def onEnded (s : OscState) (id : ℕ) : OscState :=
  { s with disconnectedIds := s.disconnectedIds ++ [id] }

/-- The event-bus operations the voice manager consumes. -/
inductive Op where
  | noteOn (note : ℤ) (velocity : ℚ)
  | noteOff (note : ℤ)
  | sustainOn
  | sustainOff
deriving DecidableEq

/-- Dispatch one semantic event to its handler. -/
def applyOp (s : OscState) : Op → OscState
  | Op.noteOn n v => onNoteOn s n v
  | Op.noteOff n => onNoteOff s n
  | Op.sustainOn => onSustainOn s
  | Op.sustainOff => onSustainOff s

/-- Run a sequence of semantic events from the initial state. -/
def run (ops : List Op) : OscState := ops.foldl applyOp initState

example : (run [Op.noteOn 60 1]).activeNotes =
    [(60, ⟨0, 60, 0, 1, Waveform.sine⟩)] := by
  simp [run, applyOp, onNoteOn, start, initState, mapGet, mapSet, mapHas]

example : (run [Op.sustainOn, Op.noteOn 60 1, Op.noteOff 60]).sustainedNotes =
    [60] := by
  simp [run, applyOp, onNoteOn, onNoteOff, onSustainOn, start, stop,
    initState, mapGet, mapSet, mapHas]

example :
    (run [Op.sustainOn, Op.noteOn 60 1, Op.noteOff 60, Op.sustainOff]).activeNotes
      = [] := by
  simp [run, applyOp, onNoteOn, onNoteOff, onSustainOn, onSustainOff, start,
    stop, stopEntry, initState, mapGet, mapSet, mapHas, mapDelete, setDelete,
    List.foldl, List.filter]

/-- The real frequency the source computes for a note:
BaseOscillator.noteToFrequency. -/
noncomputable def noteToFrequency (note : ℤ) : ℝ :=
  2 ^ (((note : ℝ) - 69) / 12) * 440

/-- The frequency of a voice: the oscillator is constructed with frequency
noteToFrequency(note) for the note the voice was created for. -/
noncomputable def Voice.frequency (v : Voice) : ℝ :=
  noteToFrequency v.note

/-! ### Helper lemmas about the association-list model of Map and Set -/

theorem mapHas_cons (e : ℤ × Voice) (t : List (ℤ × Voice)) (n : ℤ) :
    mapHas (e :: t) n = (decide (e.1 = n) || mapHas t n) := rfl

theorem mapGet_cons (e : ℤ × Voice) (t : List (ℤ × Voice)) (n : ℤ) :
    mapGet (e :: t) n = if e.1 = n then some e.2 else mapGet t n := by
  by_cases he : e.1 = n <;> simp [mapGet, List.find?_cons, he]

theorem mapDelete_cons (e : ℤ × Voice) (t : List (ℤ × Voice)) (n : ℤ) :
    mapDelete (e :: t) n
      = if e.1 = n then mapDelete t n else e :: mapDelete t n := by
  by_cases he : e.1 = n <;> simp [mapDelete, List.filter_cons, he]

theorem mapHas_iff_mem_keys (l : List (ℤ × Voice)) (n : ℤ) :
    mapHas l n = true ↔ n ∈ l.map Prod.fst := by
  rw [mapHas, List.any_eq_true]
  constructor
  · rintro ⟨e, he, hd⟩
    rw [decide_eq_true_eq] at hd
    exact hd ▸ List.mem_map_of_mem Prod.fst he
  · intro h
    obtain ⟨e, he, rfl⟩ := List.mem_map.mp h
    exact ⟨e, he, by simp⟩

theorem mapGet_eq_none_of_not_has (l : List (ℤ × Voice)) (n : ℤ)
    (h : mapHas l n = false) : mapGet l n = none := by
  induction l with
  | nil => rfl
  | cons e t ih =>
    rw [mapHas_cons, Bool.or_eq_false_iff, decide_eq_false_iff_not] at h
    rw [mapGet_cons, if_neg h.1]
    exact ih h.2

theorem mapGet_isSome_of_has (l : List (ℤ × Voice)) (n : ℤ)
    (h : mapHas l n = true) : ∃ v, mapGet l n = some v := by
  induction l with
  | nil => exact absurd h (by simp [mapHas])
  | cons e t ih =>
    by_cases he : e.1 = n
    · exact ⟨e.2, by rw [mapGet_cons, if_pos he]⟩
    · rw [mapHas_cons, Bool.or_eq_true_iff, decide_eq_true_eq] at h
      obtain ⟨v, hv⟩ := ih (h.resolve_left he)
      exact ⟨v, by rw [mapGet_cons, if_neg he]; exact hv⟩

theorem mapHas_of_mapGet (l : List (ℤ × Voice)) (n : ℤ) (v : Voice)
    (h : mapGet l n = some v) : mapHas l n = true := by
  by_contra hc
  rw [Bool.not_eq_true] at hc
  rw [mapGet_eq_none_of_not_has l n hc] at h
  exact Option.noConfusion h

theorem keys_mapDelete (l : List (ℤ × Voice)) (n : ℤ) :
    (mapDelete l n).map Prod.fst
      = (l.map Prod.fst).filter (fun k => decide (k ≠ n)) := by
  induction l with
  | nil => rfl
  | cons e t ih =>
    rw [mapDelete_cons]
    by_cases h : e.1 = n
    · rw [if_pos h, List.map_cons, List.filter_cons, ih]
      simp [h]
    · rw [if_neg h, List.map_cons, List.map_cons, List.filter_cons, ih]
      simp [h]

theorem mem_keys_mapDelete (l : List (ℤ × Voice)) (n m : ℤ) :
    m ∈ (mapDelete l n).map Prod.fst ↔ m ∈ l.map Prod.fst ∧ m ≠ n := by
  rw [keys_mapDelete]
  simp [List.mem_filter]

theorem nodup_keys_mapDelete (l : List (ℤ × Voice)) (n : ℤ)
    (h : (l.map Prod.fst).Nodup) : ((mapDelete l n).map Prod.fst).Nodup := by
  rw [keys_mapDelete]
  exact h.filter _

theorem mapHas_mapDelete_self (l : List (ℤ × Voice)) (n : ℤ) :
    mapHas (mapDelete l n) n = false := by
  rw [Bool.eq_false_iff]
  intro hc
  exact ((mem_keys_mapDelete l n n).mp ((mapHas_iff_mem_keys _ _).mp hc)).2 rfl

theorem mapGet_mapDelete_ne (l : List (ℤ × Voice)) (n m : ℤ) (h : m ≠ n) :
    mapGet (mapDelete l n) m = mapGet l m := by
  induction l with
  | nil => rfl
  | cons e t ih =>
    rw [mapDelete_cons]
    by_cases he : e.1 = n
    · have hme : ¬ e.1 = m := fun hc => h ((hc ▸ he : m = n))
      rw [if_pos he, mapGet_cons, if_neg hme]
      exact ih
    · rw [if_neg he, mapGet_cons, mapGet_cons]
      by_cases hm : e.1 = m
      · rw [if_pos hm, if_pos hm]
      · rw [if_neg hm, if_neg hm]
        exact ih

theorem keys_map_replace (l : List (ℤ × Voice)) (n : ℤ) (v : Voice) :
    (l.map (fun e => if e.1 = n then (n, v) else e)).map Prod.fst
      = l.map Prod.fst := by
  induction l with
  | nil => rfl
  | cons e t ih =>
    by_cases he : e.1 = n
    · simp only [List.map_cons, if_pos he, ih]
      rw [he]
    · simp only [List.map_cons, if_neg he, ih]

theorem keys_mapSet_of_has (l : List (ℤ × Voice)) (n : ℤ) (v : Voice)
    (h : mapHas l n = true) : (mapSet l n v).map Prod.fst = l.map Prod.fst := by
  rw [mapSet, if_pos h]
  exact keys_map_replace l n v

theorem keys_mapSet_of_not_has (l : List (ℤ × Voice)) (n : ℤ) (v : Voice)
    (h : mapHas l n = false) :
    (mapSet l n v).map Prod.fst = l.map Prod.fst ++ [n] := by
  rw [mapSet, if_neg (by rw [h]; exact Bool.false_ne_true)]
  simp

theorem mem_keys_mapSet (l : List (ℤ × Voice)) (n m : ℤ) (v : Voice) :
    m ∈ (mapSet l n v).map Prod.fst ↔ m ∈ l.map Prod.fst ∨ m = n := by
  by_cases h : mapHas l n = true
  · rw [keys_mapSet_of_has l n v h]
    constructor
    · exact Or.inl
    · rintro (hm | rfl)
      · exact hm
      · exact (mapHas_iff_mem_keys l m).mp h
  · rw [keys_mapSet_of_not_has l n v (Bool.eq_false_iff.mpr h)]
    simp

theorem nodup_keys_mapSet (l : List (ℤ × Voice)) (n : ℤ) (v : Voice)
    (h : (l.map Prod.fst).Nodup) : ((mapSet l n v).map Prod.fst).Nodup := by
  by_cases hh : mapHas l n = true
  · rwa [keys_mapSet_of_has l n v hh]
  · rw [keys_mapSet_of_not_has l n v (Bool.eq_false_iff.mpr hh)]
    have hn : n ∉ l.map Prod.fst :=
      fun hc => hh ((mapHas_iff_mem_keys l n).mpr hc)
    simp [List.nodup_append, h, hn]

theorem mapGet_append_singleton (l : List (ℤ × Voice)) (n : ℤ) (v : Voice)
    (h : mapHas l n = false) : mapGet (l ++ [(n, v)]) n = some v := by
  induction l with
  | nil => simp [mapGet, List.find?_cons]
  | cons e t ih =>
    rw [mapHas_cons, Bool.or_eq_false_iff, decide_eq_false_iff_not] at h
    rw [List.cons_append, mapGet_cons, if_neg h.1]
    exact ih h.2

theorem filter_key_mapDelete (l : List (ℤ × Voice)) (n : ℤ) :
    (mapDelete l n).filter (fun e => decide (e.1 = n)) = [] := by
  rw [List.filter_eq_nil_iff]
  intro e he
  simp only [mapDelete, List.mem_filter, decide_eq_true_eq] at he
  simpa using he.2

theorem mem_setDelete (l : List ℤ) (n m : ℤ) :
    m ∈ setDelete l n ↔ m ∈ l ∧ m ≠ n := by
  simp [setDelete, List.mem_filter]

theorem nodup_setDelete (l : List ℤ) (n : ℤ) (h : l.Nodup) :
    (setDelete l n).Nodup := h.filter _

/-! ### Well-formedness invariant of the voice-manager state -/

/-- The structural well-formedness of a BaseOscillator state: activeNotes
has unique keys (it models a Map), sustainedNotes has no duplicates (it
models a Set), and every sustained note has an active voice. -/
def stateInv (s : OscState) : Prop :=
  (s.activeNotes.map Prod.fst).Nodup ∧ s.sustainedNotes.Nodup ∧
    ∀ n ∈ s.sustainedNotes, n ∈ s.activeNotes.map Prod.fst

theorem stopEntry_stateInv (s : OscState) (n : ℤ) (v : Voice)
    (h : stateInv s) : stateInv (stopEntry s n v) := by
  obtain ⟨h1, h2, h3⟩ := h
  refine ⟨nodup_keys_mapDelete _ _ h1, nodup_setDelete _ _ h2, ?_⟩
  intro m hm
  have hm' : m ∈ setDelete s.sustainedNotes n := hm
  rw [mem_setDelete] at hm'
  exact (mem_keys_mapDelete _ _ _).mpr ⟨h3 m hm'.1, hm'.2⟩

theorem start_stateInv (s : OscState) (n : ℤ) (v : ℚ)
    (h : stateInv s) : stateInv (start s n v) := by
  rw [start]
  cases hget : mapGet s.activeNotes n with
  | none =>
    simp only [hget]
    obtain ⟨h1, h2, h3⟩ := h
    exact ⟨nodup_keys_mapSet _ _ _ h1, h2,
      fun m hm => (mem_keys_mapSet _ _ _ _).mpr (Or.inl (h3 m hm))⟩
  | some old =>
    simp only [hget]
    obtain ⟨h1, h2, h3⟩ := stopEntry_stateInv s n old h
    exact ⟨nodup_keys_mapSet _ _ _ h1, h2,
      fun m hm => (mem_keys_mapSet _ _ _ _).mpr (Or.inl (h3 m hm))⟩

theorem stop_stateInv (s : OscState) (n : ℤ) (h : stateInv s) :
    stateInv (stop s n) := by
  rw [stop]
  cases hs : s.sustainActive with
  | false =>
    simp only [Bool.false_eq_true, if_false]
    cases hget : mapGet s.activeNotes n with
    | none => exact h
    | some v => exact stopEntry_stateInv s n v h
  | true =>
    simp only [if_true]
    by_cases hc : mapHas s.activeNotes n = true ∧ n ∉ s.sustainedNotes
    · rw [if_pos hc]
      obtain ⟨h1, h2, h3⟩ := h
      refine ⟨h1, ?_, ?_⟩
      · simp [List.nodup_append, h2, hc.2]
      · intro m hm
        have hm' : m ∈ s.sustainedNotes ++ [n] := hm
        rw [List.mem_append, List.mem_singleton] at hm'
        cases hm' with
        | inl hm' => exact h3 m hm'
        | inr hm' => subst hm'; exact (mapHas_iff_mem_keys s.activeNotes m).mp hc.1
    · rw [if_neg hc]
      exact h

theorem foldl_stop_stateInv (L : List ℤ) (s : OscState) (h : stateInv s) :
    stateInv (L.foldl stop s) := by
  induction L generalizing s with
  | nil => exact h
  | cons a t ih => exact ih _ (stop_stateInv s a h)

theorem applyOp_stateInv (s : OscState) (op : Op) (h : stateInv s) :
    stateInv (applyOp s op) := by
  cases op with
  | noteOn n v => exact start_stateInv _ n v h
  | noteOff n => exact stop_stateInv _ n h
  | sustainOn => exact h
  | sustainOff => exact foldl_stop_stateInv _ _ h

theorem foldl_applyOp_stateInv (ops : List Op) (s : OscState)
    (h : stateInv s) : stateInv (ops.foldl applyOp s) := by
  induction ops generalizing s with
  | nil => exact h
  | cons op t ih => exact ih _ (applyOp_stateInv s op h)

theorem run_stateInv (ops : List Op) : stateInv (run ops) :=
  foldl_applyOp_stateInv ops initState
    ⟨List.nodup_nil, List.nodup_nil, by simp [initState]⟩

/-! ### The stoppedIds log only grows -/

theorem stop_stoppedIds_mono (s : OscState) (n : ℤ) (i : ℕ)
    (h : i ∈ s.stoppedIds) : i ∈ (stop s n).stoppedIds := by
  rw [stop]
  cases hs : s.sustainActive with
  | false =>
    simp only [Bool.false_eq_true, if_false]
    cases hget : mapGet s.activeNotes n with
    | none => exact h
    | some v => exact List.mem_append_left _ h
  | true =>
    simp only [if_true]
    by_cases hc : mapHas s.activeNotes n = true ∧ n ∉ s.sustainedNotes
    · rw [if_pos hc]; exact h
    · rw [if_neg hc]; exact h

theorem foldl_stop_stoppedIds_mono (L : List ℤ) (s : OscState) (i : ℕ)
    (h : i ∈ s.stoppedIds) : i ∈ (L.foldl stop s).stoppedIds := by
  induction L generalizing s with
  | nil => exact h
  | cons a t ih => exact ih _ (stop_stoppedIds_mono s a i h)

/-! ### The sustain-off flush -/

theorem stopEntry_activeNotes (s : OscState) (n : ℤ) (v : Voice) :
    (stopEntry s n v).activeNotes = mapDelete s.activeNotes n := rfl

theorem stopEntry_sustainedNotes (s : OscState) (n : ℤ) (v : Voice) :
    (stopEntry s n v).sustainedNotes = setDelete s.sustainedNotes n := rfl

theorem stopEntry_stoppedIds (s : OscState) (n : ℤ) (v : Voice) :
    (stopEntry s n v).stoppedIds = s.stoppedIds ++ [v.id] := rfl

theorem stopEntry_sustainActive (s : OscState) (n : ℤ) (v : Voice) :
    (stopEntry s n v).sustainActive = s.sustainActive := rfl

theorem mapHas_mapDelete_ne (l : List (ℤ × Voice)) (a n : ℤ) (h : n ≠ a) :
    mapHas (mapDelete l a) n = mapHas l n := by
  rw [Bool.eq_iff_iff, mapHas_iff_mem_keys, mapHas_iff_mem_keys,
    mem_keys_mapDelete]
  exact ⟨fun hh => hh.1, fun hh => ⟨hh, h⟩⟩

theorem filter_ne_filter_not_mem (l : List ℤ) (a : ℤ) (t : List ℤ) :
    (l.filter (fun m => decide (m ≠ a))).filter (fun m => decide (m ∉ t))
      = l.filter (fun m => decide (m ∉ a :: t)) := by
  rw [List.filter_filter]
  apply List.filter_congr
  intro x _
  by_cases h1 : x = a <;> by_cases h2 : x ∈ t <;> simp [h1, h2]

theorem stop_of_inactive_found (s : OscState) (a : ℤ) (v : Voice)
    (hs : s.sustainActive = false) (hv : mapGet s.activeNotes a = some v) :
    stop s a = stopEntry s a v := by
  rw [stop, hs, if_neg Bool.false_ne_true, hv]

/-- Folding stop over a duplicate-free list of notes that all have active
voices, with sustain off: the pedal stays off, exactly the folded notes are
removed from sustainedNotes, and the voice of each folded note is stopped. -/
theorem foldl_stop_flush (L : List ℤ) :
    ∀ s : OscState, s.sustainActive = false → L.Nodup →
    (∀ n ∈ L, mapHas s.activeNotes n = true) →
    (L.foldl stop s).sustainActive = false ∧
    (L.foldl stop s).sustainedNotes
      = s.sustainedNotes.filter (fun m => decide (m ∉ L)) ∧
    (∀ n ∈ L, ∃ v, mapGet s.activeNotes n = some v ∧
       v.id ∈ (L.foldl stop s).stoppedIds) := by
  induction L with
  | nil =>
    intro s hs _ _
    refine ⟨hs, ?_, by simp⟩
    simp
  | cons a t ih =>
    intro s hs hnd hhas
    rw [List.nodup_cons] at hnd
    have hhasa : mapHas s.activeNotes a = true := hhas a (List.mem_cons_self a t)
    obtain ⟨v, hv⟩ := mapGet_isSome_of_has _ _ hhasa
    rw [List.foldl_cons, stop_of_inactive_found s a v hs hv]
    have hs' : (stopEntry s a v).sustainActive = false := by
      rw [stopEntry_sustainActive]; exact hs
    have hhas' : ∀ n ∈ t, mapHas (stopEntry s a v).activeNotes n = true := by
      intro n hn
      have hna : n ≠ a := fun hc => hnd.1 (hc ▸ hn)
      rw [stopEntry_activeNotes, mapHas_mapDelete_ne _ _ _ hna]
      exact hhas n (List.mem_cons_of_mem a hn)
    obtain ⟨ih1, ih2, ih3⟩ := ih (stopEntry s a v) hs' hnd.2 hhas'
    refine ⟨ih1, ?_, ?_⟩
    · rw [ih2, stopEntry_sustainedNotes, setDelete, filter_ne_filter_not_mem]
    · intro n hn
      rcases List.mem_cons.mp hn with rfl | hnt
      · refine ⟨v, hv, ?_⟩
        apply foldl_stop_stoppedIds_mono
        rw [stopEntry_stoppedIds]
        exact List.mem_append_right _ (List.mem_singleton_self _)
      · have hna : n ≠ a := fun hc => hnd.1 (hc ▸ hnt)
        obtain ⟨v', hv', hmem⟩ := ih3 n hnt
        rw [stopEntry_activeNotes, mapGet_mapDelete_ne _ _ _ hna] at hv'
        exact ⟨v', hv', hmem⟩

theorem mapHas_eq_false_of_get_none (l : List (ℤ × Voice)) (n : ℤ)
    (h : mapGet l n = none) : mapHas l n = false := by
  by_contra hc
  rw [Bool.not_eq_false] at hc
  obtain ⟨v, hv⟩ := mapGet_isSome_of_has l n hc
  rw [h] at hv
  exact Option.noConfusion hv

theorem mapGet_mapSet_not_has (l : List (ℤ × Voice)) (n : ℤ) (v : Voice)
    (h : mapHas l n = false) : mapGet (mapSet l n v) n = some v := by
  rw [mapSet, if_neg (by rw [h]; exact Bool.false_ne_true)]
  exact mapGet_append_singleton l n v h

/-- The voice stored under a note right after start: it is the freshly
created one, whose fields are taken from the state at creation time. -/
theorem mapGet_start_self (s : OscState) (n : ℤ) (v : ℚ) :
    mapGet (start s n v).activeNotes n
      = some { id := s.nextId, note := n, oscDetune := s.detune
               gain := v, waveform := s.waveform } := by
  cases hget : mapGet s.activeNotes n with
  | none =>
    have hhas := mapHas_eq_false_of_get_none _ _ hget
    simp only [start, hget]
    exact mapGet_mapSet_not_has _ _ _ hhas
  | some old =>
    simp only [start, hget]
    exact mapGet_mapSet_not_has _ _ _ (mapHas_mapDelete_self _ _)

/-! ### Decoder characterizations -/

theorem decode_rejected (d0 d1 d2 : ℕ)
    (h : d0 < NOTE_OFF ∨ PITCH_WHEEL + NUM_MIDI_CHANNELS ≤ d0) :
    getEventForData d0 d1 d2 = none := by
  rw [getEventForData, if_pos h]

theorem decode_noteOnOff_branch (d0 d1 d2 : ℕ)
    (h : midiCommand d0 = NOTE_ON ∨ midiCommand d0 = NOTE_OFF)
    (h0 : ¬(d0 < NOTE_OFF ∨ PITCH_WHEEL + NUM_MIDI_CHANNELS ≤ d0)) :
    getEventForData d0 d1 d2 =
      if midiCommand d0 = NOTE_ON ∧ (d2 : ℚ) / 255 ≠ 0 then
        some (MidiEvent.noteOn (midiChannel d0) d1 ((d2 : ℚ) / 255))
      else some (MidiEvent.noteOff (midiChannel d0) d1) := by
  rw [getEventForData, if_neg h0, if_pos h]

/-- Claim C4: for every note number n the frequency used when creating that
note's voice is 2 ^ ((n - 69) / 12) * 440, and the frequency of note 69 is
exactly 440. -/
theorem voice_frequency_equal_tempered :
    (∀ n : ℤ, noteToFrequency n = 2 ^ (((n : ℝ) - 69) / 12) * 440) ∧
    noteToFrequency 69 = 440 ∧
    (∀ (s : OscState) (n : ℤ) (v : ℚ), ∃ voice,
      mapGet (start s n v).activeNotes n = some voice ∧
      voice.frequency = 2 ^ (((n : ℝ) - 69) / 12) * 440) := by
  refine ⟨fun n => rfl, ?_, ?_⟩
  · have h : (((69 : ℤ) : ℝ) - 69) / 12 = 0 := by norm_num
    rw [noteToFrequency, h, Real.rpow_zero, one_mul]
  · intro s n v
    exact ⟨_, mapGet_start_self s n v, rfl⟩

/-- Claim C6: a message whose status byte is below 0x80 or at or above 0xF0
is silently dropped. -/
theorem unsupported_status_dropped :
    ∀ d0 d1 d2 : ℕ, d0 < 0x80 ∨ 0xF0 ≤ d0 → getEventForData d0 d1 d2 = none := by
  intro d0 d1 d2 h
  apply decode_rejected
  simp only [NOTE_OFF, PITCH_WHEEL, NUM_MIDI_CHANNELS]
  omega

/-- Witness for claim C6 at the concrete input [0x79, 0, 0]. -/
theorem unsupported_status_dropped_witness :
    ((0x79 : ℕ) < 0x80 ∨ (0xF0 : ℕ) ≤ 0x79) ∧ getEventForData 0x79 0 0 = none :=
  ⟨Or.inl (by norm_num), unsupported_status_dropped 0x79 0 0 (Or.inl (by norm_num))⟩

/-- Claim C7: every pitch-wheel message (status 0xE0 to 0xEF) decodes to
pitchWheel with value (data1 + data2 * 256) / 65535, which lies in [0, 1];
in particular [0xE0, 0x00, 0x40] decodes to (0 + 0x40 * 256) / 65535. -/
theorem pitchwheel_normalized_value :
    (∀ d0 d1 d2 : ℕ, 0xE0 ≤ d0 → d0 < 0xF0 → d1 ≤ 255 → d2 ≤ 255 →
      getEventForData d0 d1 d2
        = some (MidiEvent.pitchWheel (((d1 : ℚ) + (d2 : ℚ) * 256) / 65535)) ∧
      0 ≤ ((d1 : ℚ) + (d2 : ℚ) * 256) / 65535 ∧
      ((d1 : ℚ) + (d2 : ℚ) * 256) / 65535 ≤ 1) ∧
    getEventForData 0xE0 0x00 0x40
      = some (MidiEvent.pitchWheel (((0x00 : ℚ) + (0x40 : ℚ) * 256) / 65535)) := by
  have main : ∀ d0 d1 d2 : ℕ, 0xE0 ≤ d0 → d0 < 0xF0 → d1 ≤ 255 → d2 ≤ 255 →
      getEventForData d0 d1 d2
        = some (MidiEvent.pitchWheel (((d1 : ℚ) + (d2 : ℚ) * 256) / 65535)) ∧
      0 ≤ ((d1 : ℚ) + (d2 : ℚ) * 256) / 65535 ∧
      ((d1 : ℚ) + (d2 : ℚ) * 256) / 65535 ≤ 1 := by
    intro d0 d1 d2 h0 h1 hd1 hd2
    have hb0 : ¬(d0 < NOTE_OFF ∨ PITCH_WHEEL + NUM_MIDI_CHANNELS ≤ d0) := by
      simp only [NOTE_OFF, PITCH_WHEEL, NUM_MIDI_CHANNELS]
      omega
    have hcm : midiCommand d0 = PITCH_WHEEL := by
      simp only [midiCommand, midiChannel, PITCH_WHEEL, NUM_MIDI_CHANNELS]
      omega
    have hne1 : ¬(midiCommand d0 = NOTE_ON ∨ midiCommand d0 = NOTE_OFF) := by
      rw [hcm]
      decide
    rw [getEventForData, if_neg hb0, if_neg hne1, if_pos hcm]
    refine ⟨rfl, ?_, ?_⟩
    · positivity
    · rw [div_le_one (by norm_num)]
      have c1 : (d1 : ℚ) ≤ 255 := by exact_mod_cast hd1
      have c2 : (d2 : ℚ) ≤ 255 := by exact_mod_cast hd2
      have c3 : (d2 : ℚ) * 256 ≤ 255 * 256 :=
        mul_le_mul_of_nonneg_right c2 (by norm_num)
      linarith
  exact ⟨main, (main 0xE0 0x00 0x40 (by norm_num) (by norm_num) (by norm_num)
    (by norm_num)).1⟩

/-- Witness for claim C7 at the concrete input [0xE0, 0x00, 0x40]. -/
theorem pitchwheel_normalized_value_witness :
    getEventForData 0xE0 0x00 0x40
      = some (MidiEvent.pitchWheel (((0x00 : ℚ) + (0x40 : ℚ) * 256) / 65535)) ∧
    (0 : ℚ) ≤ ((0x00 : ℚ) + (0x40 : ℚ) * 256) / 65535 ∧
    ((0x00 : ℚ) + (0x40 : ℚ) * 256) / 65535 ≤ 1 :=
  pitchwheel_normalized_value.1 0xE0 0x00 0x40 (by norm_num) (by norm_num)
    (by norm_num) (by norm_num)

/-- Claim C5: a Note-On with velocity byte 0 decodes to the same noteOff
event as a Note-Off for that note, on every channel; and a noteOn event is
produced only when the command is NoteOn and the velocity is nonzero. -/
theorem noteOn_velocity_zero_aliasing :
    (∀ c : ℕ, c < 16 → ∀ note : ℕ,
      getEventForData (0x90 + c) note 0 = some (MidiEvent.noteOff c note) ∧
      getEventForData (0x80 + c) note 0 = some (MidiEvent.noteOff c note)) ∧
    (∀ d0 d1 d2 ch nt : ℕ, ∀ vel : ℚ,
      getEventForData d0 d1 d2 = some (MidiEvent.noteOn ch nt vel) →
      midiCommand d0 = NOTE_ON ∧ vel ≠ 0) ∧
    getEventForData 0x90 60 0 = some (MidiEvent.noteOff 0 60) ∧
    getEventForData 0x80 60 0 = some (MidiEvent.noteOff 0 60) := by
  have main1 : ∀ c : ℕ, c < 16 → ∀ note : ℕ,
      getEventForData (0x90 + c) note 0 = some (MidiEvent.noteOff c note) ∧
      getEventForData (0x80 + c) note 0 = some (MidiEvent.noteOff c note) := by
    intro c hc note
    have hb9 : ¬(0x90 + c < NOTE_OFF ∨ PITCH_WHEEL + NUM_MIDI_CHANNELS ≤ 0x90 + c) := by
      simp only [NOTE_OFF, PITCH_WHEEL, NUM_MIDI_CHANNELS]
      omega
    have hb8 : ¬(0x80 + c < NOTE_OFF ∨ PITCH_WHEEL + NUM_MIDI_CHANNELS ≤ 0x80 + c) := by
      simp only [NOTE_OFF, PITCH_WHEEL, NUM_MIDI_CHANNELS]
      omega
    have hch9 : midiChannel (0x90 + c) = c := by
      simp only [midiChannel, NUM_MIDI_CHANNELS]
      omega
    have hch8 : midiChannel (0x80 + c) = c := by
      simp only [midiChannel, NUM_MIDI_CHANNELS]
      omega
    have hcm9 : midiCommand (0x90 + c) = NOTE_ON := by
      simp only [midiCommand, midiChannel, NOTE_ON, NUM_MIDI_CHANNELS]
      omega
    have hcm8 : midiCommand (0x80 + c) = NOTE_OFF := by
      simp only [midiCommand, midiChannel, NOTE_OFF, NUM_MIDI_CHANNELS]
      omega
    constructor
    · rw [decode_noteOnOff_branch _ _ _ (Or.inl hcm9) hb9, if_neg, hch9]
      intro hcond
      exact hcond.2 (by norm_num)
    · rw [decode_noteOnOff_branch _ _ _ (Or.inr hcm8) hb8, if_neg, hch8]
      intro hcond
      rw [hcm8] at hcond
      exact absurd hcond.1 (by decide)
  have main2 : ∀ d0 d1 d2 ch nt : ℕ, ∀ vel : ℚ,
      getEventForData d0 d1 d2 = some (MidiEvent.noteOn ch nt vel) →
      midiCommand d0 = NOTE_ON ∧ vel ≠ 0 := by
    intro d0 d1 d2 ch nt vel h
    rw [getEventForData] at h
    split at h
    · exact absurd h (by simp)
    · split at h
      · split at h
        · rename_i hcond
          rw [Option.some.injEq, MidiEvent.noteOn.injEq] at h
          exact ⟨hcond.1, h.2.2 ▸ hcond.2⟩
        · exact absurd h (by simp)
      · split at h
        · exact absurd h (by simp)
        · split at h
          · split at h
            · exact absurd h (by simp)
            · split at h
              · split at h
                · exact absurd h (by simp)
                · exact absurd h (by simp)
              · exact absurd h (by simp)
          · exact absurd h (by simp)
  refine ⟨main1, main2, (main1 0 (by norm_num) 60).1, (main1 0 (by norm_num) 60).2⟩

/-- Witness for claim C5: the aliasing pair at channel 0, note 60, and the
noteOn inversion at the concrete message [0x90, 60, 127]. -/
theorem noteOn_velocity_zero_aliasing_witness :
    ((0 : ℕ) < 16 ∧
     getEventForData 0x90 60 0 = some (MidiEvent.noteOff 0 60) ∧
     getEventForData 0x80 60 0 = some (MidiEvent.noteOff 0 60)) ∧
    (getEventForData 0x90 60 127
       = some (MidiEvent.noteOn 0 60 ((127 : ℚ) / 255)) ∧
     midiCommand 0x90 = NOTE_ON ∧ ((127 : ℚ) / 255) ≠ 0) := by
  have hdec : getEventForData 0x90 60 127
      = some (MidiEvent.noteOn 0 60 ((127 : ℚ) / 255)) := by
    norm_num [getEventForData, midiCommand, midiChannel, NOTE_OFF, NOTE_ON,
      PITCH_WHEEL, NUM_MIDI_CHANNELS]
  refine ⟨⟨by norm_num, (noteOn_velocity_zero_aliasing.1 0 (by norm_num) 60).1,
    (noteOn_velocity_zero_aliasing.1 0 (by norm_num) 60).2⟩,
    hdec, noteOn_velocity_zero_aliasing.2.1 0x90 60 127 0 60 ((127 : ℚ) / 255) hdec⟩

/-! ### Voice-manager claims -/

theorem filter_key_mapSet_after_delete (l : List (ℤ × Voice)) (n : ℤ)
    (v : Voice) :
    ((mapSet (mapDelete l n) n v).filter (fun e => decide (e.1 = n))).length
      = 1 := by
  rw [mapSet, if_neg (by rw [mapHas_mapDelete_self]; exact Bool.false_ne_true)]
  rw [List.filter_append, filter_key_mapDelete]
  simp

/-- Claim C1: activeVoices has at most one live voice per note after any
sequence of noteOn, noteOff, sustainOn, sustainOff events; and a noteOn for
an already-active note stops the old voice (its oscillator id is stopped,
even when sustain is active, since the retrigger path never consults the
pedal) and leaves exactly one entry for that note. -/
theorem activeVoices_unique_per_note :
    (∀ ops : List Op, ((run ops).activeNotes.map Prod.fst).Nodup) ∧
    (∀ (s : OscState) (n : ℤ) (v : ℚ) (old : Voice),
      mapGet s.activeNotes n = some old →
      old.id ∈ (onNoteOn s n v).stoppedIds ∧
      ((onNoteOn s n v).activeNotes.filter
        (fun e => decide (e.1 = n))).length = 1) := by
  constructor
  · exact fun ops => (run_stateInv ops).1
  · intro s n v old h
    have h' : mapGet ({ s with isNoteOn := true } : OscState).activeNotes n
        = some old := h
    constructor
    · show old.id ∈ (start { s with isNoteOn := true } n v).stoppedIds
      simp only [start, h']
      exact List.mem_append_right _ (List.mem_singleton_self _)
    · show ((start { s with isNoteOn := true } n v).activeNotes.filter
          (fun e => decide (e.1 = n))).length = 1
      simp only [start, h']
      exact filter_key_mapSet_after_delete _ _ _

/-- Witness for claim C1: retriggering note 60 after run [noteOn 60 1]
stops the old oscillator (id 0) and leaves one entry for note 60. -/
theorem activeVoices_unique_per_note_witness :
    mapGet (run [Op.noteOn 60 1]).activeNotes 60
      = some ⟨0, 60, 0, 1, Waveform.sine⟩ ∧
    (⟨0, 60, 0, 1, Waveform.sine⟩ : Voice).id
      ∈ (onNoteOn (run [Op.noteOn 60 1]) 60 1).stoppedIds ∧
    ((onNoteOn (run [Op.noteOn 60 1]) 60 1).activeNotes.filter
      (fun e => decide (e.1 = 60))).length = 1 := by
  have h : mapGet (run [Op.noteOn 60 1]).activeNotes 60
      = some ⟨0, 60, 0, 1, Waveform.sine⟩ := by
    simp [run, applyOp, onNoteOn, start, initState, mapGet, mapSet, mapHas]
  exact ⟨h, (activeVoices_unique_per_note.2 (run [Op.noteOn 60 1]) 60 1
    ⟨0, 60, 0, 1, Waveform.sine⟩ h).1,
    (activeVoices_unique_per_note.2 (run [Op.noteOn 60 1]) 60 1
    ⟨0, 60, 0, 1, Waveform.sine⟩ h).2⟩

theorem stop_noop (s : OscState) (n : ℤ)
    (h : mapHas s.activeNotes n = false) : stop s n = s := by
  have hget := mapGet_eq_none_of_not_has _ _ h
  rw [stop]
  cases hb : s.sustainActive with
  | false => simp only [Bool.false_eq_true, if_false, hget]
  | true =>
    simp only [if_true]
    rw [if_neg]
    intro hc
    rw [h] at hc
    exact Bool.false_ne_true hc.1

/-- Claim C9: a noteOff for a note with no active voice is a no-op for the
whole voice-manager state, whatever the sustain pedal state: the stop
method returns the state unchanged, and the noteOff handler leaves
activeVoices, sustainedNotes, sustainActive and all controller state
untouched (the only field the handler writes is the isNoteOn UI flag,
which is not part of the voice-manager state the spec describes). -/
theorem stale_noteOff_noop :
    ∀ (s : OscState) (n : ℤ), mapHas s.activeNotes n = false →
      stop s n = s ∧
      (onNoteOff s n).activeNotes = s.activeNotes ∧
      (onNoteOff s n).sustainedNotes = s.sustainedNotes ∧
      (onNoteOff s n).sustainActive = s.sustainActive ∧
      (onNoteOff s n).detune = s.detune ∧
      (onNoteOff s n).detuneAmount = s.detuneAmount ∧
      (onNoteOff s n).stickyPitchBend = s.stickyPitchBend ∧
      (onNoteOff s n).waveform = s.waveform ∧
      (onNoteOff s n).stoppedIds = s.stoppedIds := by
  intro s n h
  have hs' : onNoteOff s n = { s with isNoteOn := false } := by
    rw [onNoteOff]
    exact stop_noop { s with isNoteOn := false } n h
  rw [hs']
  exact ⟨stop_noop s n h, rfl, rfl, rfl, rfl, rfl, rfl, rfl, rfl⟩

/-- Witness for claim C9: noteOff 60 on the initial state (note never
pressed), and on the same state with sustain held. -/
theorem stale_noteOff_noop_witness :
    mapHas initState.activeNotes 60 = false ∧
    stop initState 60 = initState ∧
    mapHas (onSustainOn initState).activeNotes 60 = false ∧
    stop (onSustainOn initState) 60 = onSustainOn initState :=
  ⟨rfl, (stale_noteOff_noop initState 60 rfl).1, rfl,
    (stale_noteOff_noop (onSustainOn initState) 60 rfl).1⟩

/-- Claim C10: after any sequence of noteOn, noteOff, sustainOn and
sustainOff events, every note of sustainedNotes has an entry in
activeVoices (the subset relation holds at all times, including right
after a sustain-off flush, which empties sustainedNotes). -/
theorem sustainedNotes_subset_activeVoices :
    ∀ (ops : List Op) (n : ℤ), n ∈ (run ops).sustainedNotes →
      n ∈ (run ops).activeNotes.map Prod.fst :=
  fun ops n hn => (run_stateInv ops).2.2 n hn

/-- Witness for claim C10 on the run sustainOn, noteOn 60, noteOff 60:
note 60 is sustained and indeed still has an active voice. -/
theorem sustainedNotes_subset_activeVoices_witness :
    (60 : ℤ) ∈ (run [Op.sustainOn, Op.noteOn 60 1, Op.noteOff 60]).sustainedNotes ∧
    (60 : ℤ) ∈ (run [Op.sustainOn, Op.noteOn 60 1,
      Op.noteOff 60]).activeNotes.map Prod.fst := by
  have h : (60 : ℤ) ∈ (run [Op.sustainOn, Op.noteOn 60 1,
      Op.noteOff 60]).sustainedNotes := by
    simp [run, applyOp, onNoteOn, onNoteOff, onSustainOn, start, stop,
      initState, mapGet, mapSet, mapHas]
  exact ⟨h, sustainedNotes_subset_activeVoices _ 60 h⟩

theorem filter_not_mem_self (l : List ℤ) :
    l.filter (fun m => decide (m ∉ l)) = [] := by
  rw [List.filter_eq_nil_iff]
  intro a ha
  simp [ha]

theorem stop_sustain_defers (s : OscState) (n : ℤ) (v : Voice)
    (hs : s.sustainActive = true) (hv : mapGet s.activeNotes n = some v) :
    mapGet (stop s n).activeNotes n = some v ∧
    n ∈ (stop s n).sustainedNotes ∧
    (stop s n).stoppedIds = s.stoppedIds := by
  have hhas := mapHas_of_mapGet _ _ _ hv
  rw [stop]
  split
  · split
    · exact ⟨hv, List.mem_append_right _ (List.mem_singleton_self _), rfl⟩
    · rename_i hc
      have hmem : n ∈ s.sustainedNotes := by
        by_contra hm
        exact hc ⟨hhas, hm⟩
      exact ⟨hv, hmem, rfl⟩
  · rename_i hc
    exact absurd hs hc

/-- Claim C2: with sustain active, noteOff on an active note keeps its
voice in activeVoices (nothing is stopped) and records the note in
sustainedNotes; sustainOff then clears the pedal, stops the voice of every
sustained note and empties sustainedNotes.  The concrete scenario
sustainOn; noteOn 60; noteOff 60; sustainOff behaves exactly so. -/
theorem sustain_defers_release_and_flush :
    (∀ (s : OscState) (n : ℤ) (v : Voice),
      s.sustainActive = true → mapGet s.activeNotes n = some v →
      mapGet (onNoteOff s n).activeNotes n = some v ∧
      n ∈ (onNoteOff s n).sustainedNotes ∧
      (onNoteOff s n).stoppedIds = s.stoppedIds) ∧
    (∀ s : OscState, s.sustainedNotes.Nodup →
      (∀ n ∈ s.sustainedNotes, mapHas s.activeNotes n = true) →
      (onSustainOff s).sustainActive = false ∧
      (onSustainOff s).sustainedNotes = [] ∧
      ∀ n ∈ s.sustainedNotes, ∃ v, mapGet s.activeNotes n = some v ∧
        v.id ∈ (onSustainOff s).stoppedIds) ∧
    (mapGet (run [Op.sustainOn, Op.noteOn 60 1, Op.noteOff 60]).activeNotes 60
       = some ⟨0, 60, 0, 1, Waveform.sine⟩ ∧
     (run [Op.sustainOn, Op.noteOn 60 1, Op.noteOff 60]).sustainedNotes = [60] ∧
     mapGet (run [Op.sustainOn, Op.noteOn 60 1, Op.noteOff 60,
       Op.sustainOff]).activeNotes 60 = none ∧
     (run [Op.sustainOn, Op.noteOn 60 1, Op.noteOff 60,
       Op.sustainOff]).sustainedNotes = [] ∧
     (run [Op.sustainOn, Op.noteOn 60 1, Op.noteOff 60,
       Op.sustainOff]).stoppedIds = [0]) := by
  refine ⟨?_, ?_, ?_, ?_, ?_, ?_, ?_⟩
  · intro s n v hs hv
    exact stop_sustain_defers { s with isNoteOn := false } n v hs hv
  · intro s hnd hhas
    obtain ⟨h1, h2, h3⟩ := foldl_stop_flush s.sustainedNotes
      { s with sustainActive := false } rfl hnd hhas
    have h2' : (onSustainOff s).sustainedNotes
        = s.sustainedNotes.filter (fun m => decide (m ∉ s.sustainedNotes)) := h2
    exact ⟨h1, by rw [h2', filter_not_mem_self], h3⟩
  · simp [run, applyOp, onNoteOn, onNoteOff, onSustainOn, start, stop,
      initState, mapGet, mapSet, mapHas]
  · simp [run, applyOp, onNoteOn, onNoteOff, onSustainOn, start, stop,
      initState, mapGet, mapSet, mapHas]
  · simp [run, applyOp, onNoteOn, onNoteOff, onSustainOn, onSustainOff, start,
      stop, stopEntry, initState, mapGet, mapSet, mapHas, mapDelete, setDelete,
      List.foldl, List.filter]
  · simp [run, applyOp, onNoteOn, onNoteOff, onSustainOn, onSustainOff, start,
      stop, stopEntry, initState, mapGet, mapSet, mapHas, mapDelete, setDelete,
      List.foldl, List.filter]
  · simp [run, applyOp, onNoteOn, onNoteOff, onSustainOn, onSustainOff, start,
      stop, stopEntry, initState, mapGet, mapSet, mapHas, mapDelete, setDelete,
      List.foldl, List.filter]

/-- Witness for claim C2 on the reachable states of the spec scenario. -/
theorem sustain_defers_release_and_flush_witness :
    ((run [Op.sustainOn, Op.noteOn 60 1]).sustainActive = true ∧
     mapGet (run [Op.sustainOn, Op.noteOn 60 1]).activeNotes 60
       = some ⟨0, 60, 0, 1, Waveform.sine⟩ ∧
     (60 : ℤ) ∈ (onNoteOff (run [Op.sustainOn,
       Op.noteOn 60 1]) 60).sustainedNotes) ∧
    ((run [Op.sustainOn, Op.noteOn 60 1, Op.noteOff 60]).sustainedNotes.Nodup ∧
     (onSustainOff (run [Op.sustainOn, Op.noteOn 60 1,
       Op.noteOff 60])).sustainedNotes = []) := by
  have h1 : (run [Op.sustainOn, Op.noteOn 60 1]).sustainActive = true := by
    simp [run, applyOp, onNoteOn, onSustainOn, start, initState, mapGet,
      mapSet, mapHas]
  have h2 : mapGet (run [Op.sustainOn, Op.noteOn 60 1]).activeNotes 60
      = some ⟨0, 60, 0, 1, Waveform.sine⟩ := by
    simp [run, applyOp, onNoteOn, onSustainOn, start, initState, mapGet,
      mapSet, mapHas]
  have hnd : (run [Op.sustainOn, Op.noteOn 60 1,
      Op.noteOff 60]).sustainedNotes.Nodup := by
    simp [run, applyOp, onNoteOn, onNoteOff, onSustainOn, start, stop,
      initState, mapGet, mapSet, mapHas]
  have hhas : ∀ n ∈ (run [Op.sustainOn, Op.noteOn 60 1,
      Op.noteOff 60]).sustainedNotes,
      mapHas (run [Op.sustainOn, Op.noteOn 60 1,
        Op.noteOff 60]).activeNotes n = true := by
    simp [run, applyOp, onNoteOn, onNoteOff, onSustainOn, start, stop,
      initState, mapGet, mapSet, mapHas]
  exact ⟨⟨h1, h2, (sustain_defers_release_and_flush.1 _ 60 _ h1 h2).2.1⟩,
    hnd, (sustain_defers_release_and_flush.2.1 _ hnd hhas).2.1⟩

theorem mapDelete_idem (l : List (ℤ × Voice)) (n : ℤ) :
    mapDelete (mapDelete l n) n = mapDelete l n := by
  simp only [mapDelete, List.filter_filter]
  apply List.filter_congr
  intro x _
  by_cases h : x.1 = n <;> simp [h]

theorem setDelete_idem (l : List ℤ) (n : ℤ) :
    setDelete (setDelete l n) n = setDelete l n := by
  simp only [setDelete, List.filter_filter]
  apply List.filter_congr
  intro x _
  by_cases h : x = n <;> simp [h]

/-- Counterexample for claim C3: after run [noteOn 60 1] the voice for
note 60 is the one with oscillator id 0, and invoking the onended
completion callback registered for that oscillator releases its audio
nodes but does NOT remove note 60 from activeVoices (the bookkeeping
removal lives in the stop closure, not in the completion callback). -/
theorem completion_callback_does_not_remove :
    mapGet (run [Op.noteOn 60 1]).activeNotes 60
      = some ⟨0, 60, 0, 1, Waveform.sine⟩ ∧
    (onEnded (run [Op.noteOn 60 1]) 0).activeNotes
      = (run [Op.noteOn 60 1]).activeNotes ∧
    mapHas (onEnded (run [Op.noteOn 60 1]) 0).activeNotes 60 = true ∧
    (onEnded (run [Op.noteOn 60 1]) 0).disconnectedIds = [0] := by
  refine ⟨?_, rfl, ?_, ?_⟩
  · simp [run, applyOp, onNoteOn, start, initState, mapGet, mapSet, mapHas]
  · simp [run, applyOp, onNoteOn, onEnded, start, initState, mapGet, mapSet,
      mapHas]
  · simp [run, applyOp, onNoteOn, onEnded, start, initState, mapGet, mapSet,
      mapHas]

/-- Amended claim C3: the completion callback registered at voice creation
only releases the voice's audio resources (it disconnects the oscillator
and gain nodes) and leaves activeVoices and sustainedNotes untouched;
removal of the note from both collections is performed by the voice's stop
closure when the voice is stopped, and those deletes are idempotent. -/
theorem completion_callback_releases_only :
    ∀ (s : OscState) (i : ℕ) (n : ℤ) (v : Voice),
      (onEnded s i).disconnectedIds = s.disconnectedIds ++ [i] ∧
      (onEnded s i).activeNotes = s.activeNotes ∧
      (onEnded s i).sustainedNotes = s.sustainedNotes ∧
      (stopEntry s n v).activeNotes = mapDelete s.activeNotes n ∧
      (stopEntry s n v).sustainedNotes = setDelete s.sustainedNotes n ∧
      mapDelete (mapDelete s.activeNotes n) n = mapDelete s.activeNotes n ∧
      setDelete (setDelete s.sustainedNotes n) n = setDelete s.sustainedNotes n :=
  fun s i n v => ⟨rfl, rfl, rfl, rfl, rfl, mapDelete_idem _ _, setDelete_idem _ _⟩

/-- Claim C8: a pitch-wheel input sets detune to value * detuneAmount * 100
cents and writes that detune to every oscillator currently in activeVoices
(not only future ones); with the two notes 60 and 64 sounding, both
oscillators carry the new detune with no further noteOn. -/
theorem pitchwheel_detune_applied_live :
    (∀ (s : OscState) (value : ℚ),
      (onDetune s value).detune = value * s.detuneAmount * 100 ∧
      ∀ e ∈ (onDetune s value).activeNotes,
        e.2.oscDetune = value * s.detuneAmount * 100) ∧
    (∀ value : ℚ, ∀ e ∈ (onDetune (run [Op.noteOn 60 1, Op.noteOn 64 1])
        value).activeNotes, e.2.oscDetune = value * 2 * 100) ∧
    (run [Op.noteOn 60 1, Op.noteOn 64 1]).activeNotes.map Prod.fst
      = [60, 64] := by
  have h2 : (run [Op.noteOn 60 1, Op.noteOn 64 1]).detuneAmount = 2 := by
    simp [run, applyOp, onNoteOn, start, initState, mapGet, mapSet, mapHas]
  refine ⟨?_, ?_, ?_⟩
  · intro s value
    refine ⟨rfl, ?_⟩
    intro e he
    simp only [onDetune] at he
    obtain ⟨e1, he1, rfl⟩ := List.mem_map.mp he
    rfl
  · intro value e he
    simp only [onDetune] at he
    obtain ⟨e1, he1, rfl⟩ := List.mem_map.mp he
    show value * (run [Op.noteOn 60 1, Op.noteOn 64 1]).detuneAmount * 100
      = value * 2 * 100
    rw [h2]
  · simp [run, applyOp, onNoteOn, start, initState, mapGet, mapSet, mapHas]

/-- Witness for claim C8: with notes 60 and 64 active and a full-scale
bend of 1, the oscillator of note 60 carries detune 1 * 2 * 100 = 200. -/
theorem pitchwheel_detune_applied_live_witness :
    ((60 : ℤ), (⟨0, 60, 200, 1, Waveform.sine⟩ : Voice))
      ∈ (onDetune (run [Op.noteOn 60 1, Op.noteOn 64 1]) 1).activeNotes ∧
    (⟨0, 60, 200, 1, Waveform.sine⟩ : Voice).oscDetune = 1 * 2 * 100 := by
  have hmem : ((60 : ℤ), (⟨0, 60, 200, 1, Waveform.sine⟩ : Voice))
      ∈ (onDetune (run [Op.noteOn 60 1, Op.noteOn 64 1]) 1).activeNotes := by
    norm_num [run, applyOp, onNoteOn, onDetune, start, initState, mapGet,
      mapSet, mapHas]
  exact ⟨hmem, pitchwheel_detune_applied_live.2.1 1 _ hmem⟩
